import Mathlib

/-!
Verification of the DNMP/syncps core: the IBLT data structure
(`syncps/iblt.hpp`), the sync protocol engine's publication store and
subscription dispatch (`syncps/syncps.hpp`) and the command/reply shim's
default publication filter (`CRshim.hpp`), shallowly embedded in Lean.

Machine integers are modelled as `Nat` (unsigned, reduced mod 2^32 where
the C++ computes on `uint32_t`) and `Int` (for the signed cell count).
-/

namespace DNMP

set_option maxRecDepth 100000

/-- 2^32, the modulus of all `uint32_t` arithmetic. -/
def M32 : Nat := 4294967296

/-- `ROTL32(x, r)` from iblt.hpp: 32-bit rotate left (inputs are < 2^32). -/
def rotl32 (x : Nat) (r : Nat) : Nat :=
  ((x <<< r) % M32) ||| (x >>> (32 - r))

/-- murmurHash3 block-mix constant c1. -/
def mc1 : Nat := 0xcc9e2d51

/-- murmurHash3 block-mix constant c2. -/
def mc2 : Nat := 0x1b873593

/-- The k1-premix applied to each 4-byte block (and to the tail):
`k1 *= c1; k1 = ROTL32(k1,15); k1 *= c2`. -/
def mmixK (k : Nat) : Nat :=
  (rotl32 ((k * mc1) % M32) 15 * mc2) % M32

/-- The per-block state update:
`h1 ^= k1mix; h1 = ROTL32(h1,13); h1 = h1*5 + 0xe6546b64`. -/
def mstep (h1 k : Nat) : Nat :=
  (rotl32 (h1 ^^^ mmixK k) 13 * 5 + 0xe6546b64) % M32

/-- Little-endian combination of 4 bytes into a 32-bit word. -/
def le32 (a b c d : Nat) : Nat := a + 256 * b + 65536 * c + 16777216 * d

/-- The switch on `size & 3` handling the remaining tail bytes. -/
def mtail (h1 : Nat) : List Nat → Nat
  | [] => h1
  | [a] => h1 ^^^ mmixK a
  | [a, b] => h1 ^^^ mmixK (a + 256 * b)
  | [a, b, c] => h1 ^^^ mmixK (a + 256 * b + 65536 * c)
  | _ => h1

/-- The final avalanche of murmurHash3_x86_32. -/
def mfinal (h : Nat) : Nat :=
  let h1 := h ^^^ (h >>> 16)
  let h2 := (h1 * 0x85ebca6b) % M32
  let h3 := h2 ^^^ (h2 >>> 13)
  let h4 := (h3 * 0xc2b2ae35) % M32
  h4 ^^^ (h4 >>> 16)

/-- The `size/4` full little-endian 4-byte blocks of the input. -/
def blocks4 : List Nat → List Nat
  | a :: b :: c :: d :: rest => le32 a b c d :: blocks4 rest
  | _ => []

/-- The `size & 3` trailing bytes of the input. -/
def tail4 : List Nat → List Nat
  | _ :: _ :: _ :: _ :: rest => tail4 rest
  | t => t

/-- `murmurHash3(nHashSeed, vDataToHash)` from iblt.hpp: Appleby's
murmurHash3_x86_32 over a byte vector — the block loop (a fold of
`mstep` over the 4-byte blocks), the tail switch, `h1 ^= size`, and the
final avalanche. -/
def murmurHash3 (seed : Nat) (bytes : List Nat) : Nat :=
  mfinal (mtail ((blocks4 bytes).foldl mstep seed) (tail4 bytes) ^^^ (bytes.length % M32))

/-- The little-endian bytes of a 32-bit value. -/
def bytesLE4 (v : Nat) : List Nat :=
  [v % 256, v / 256 % 256, v / 65536 % 256, v / 16777216 % 256]

/-- `murmurHash3(nHashSeed, uint32_t value)` from iblt.hpp: hashes the 4
little-endian bytes of the value. -/
def murmur32 (seed : Nat) (v : Nat) : Nat := murmurHash3 seed (bytesLE4 v)

/-- Seed count `N_HASH` = 3 sub-tables. -/
def N_HASH : Nat := 3

/-- `N_HASHCHECK` = 11, the keyCheck seed. -/
def N_HASHCHECK : Nat := 11

/-- `HashTableEntry`: signed 32-bit count, 32-bit keySum and keyCheck. -/
@[ext] structure Cell where
  count : Int
  keySum : Nat
  keyCheck : Nat
  deriving DecidableEq, Repr

/-- The all-zero cell (C++ value-initialized `HashTableEntry`). -/
def zeroCell : Cell := ⟨0, 0, 0⟩

/-- `HashTableEntry::isPure()`. -/
def Cell.isPure (c : Cell) : Bool :=
  (c.count = 1 || c.count = -1) && (c.keyCheck = murmur32 N_HASHCHECK c.keySum)

/-- `HashTableEntry::isEmpty()`. -/
def Cell.isEmptyC (c : Cell) : Bool :=
  c.count = 0 && c.keySum = 0 && c.keyCheck = 0

/-- Modify the element at an index of a list (no-op when out of range);
models in-place mutation of `m_hashTable.at(idx)`. -/
def modN (f : Cell → Cell) : Nat → List Cell → List Cell
  | _, [] => []
  | 0, c :: cs => f c :: cs
  | n + 1, c :: cs => c :: modN f n cs

/-- Number of cells the `IBLT(expectedNumEntries)` constructor allocates:
1.5x (integer arithmetic) rounded up to a multiple of `N_HASH`. -/
def nEntries (expected : Nat) : Nat :=
  let n := expected + expected / 2
  let r := n % N_HASH
  if r ≠ 0 then n + (N_HASH - r) else n

/-- A freshly constructed table of `n` zeroed cells. -/
def freshTable (n : Nat) : List Cell := List.replicate n zeroCell

/-- `IBLT::hash0`: index in sub-table 0. -/
def hash0 (t : List Cell) (key : Nat) : Nat :=
  murmur32 0 key % (t.length / N_HASH)

/-- `IBLT::hash1`: index in sub-table 1. -/
def hash1 (t : List Cell) (key : Nat) : Nat :=
  murmur32 1 key % (t.length / N_HASH) + t.length / N_HASH

/-- `IBLT::hash2`: index in sub-table 2. -/
def hash2 (t : List Cell) (key : Nat) : Nat :=
  murmur32 2 key % (t.length / N_HASH) + (t.length / N_HASH) * 2

/-- `IBLT::chkPeer(key, idx)`. -/
def chkPeer (t : List Cell) (key : Nat) (idx : Nat) : Bool :=
  let hte := t.getD idx zeroCell
  hte.isEmptyC || (hte.isPure && hte.keySum ≠ key)

/-- `IBLT::badPeers(key)`. -/
def badPeers (t : List Cell) (key : Nat) : Bool :=
  chkPeer t key (hash0 t key) || chkPeer t key (hash1 t key) ||
    chkPeer t key (hash2 t key)

/-- The cell-level effect of `IBLT::update`:
`count += plusOrMinus; keySum ^= key; keyCheck ^= murmurHash3(N_HASHCHECK, key)`. -/
def updCell (pm : Int) (key : Nat) (c : Cell) : Cell :=
  ⟨c.count + pm, c.keySum ^^^ key, c.keyCheck ^^^ murmur32 N_HASHCHECK key⟩

/-- `IBLT::update(plusOrMinus, key)`: apply `updCell` at the three hash
positions (one per sub-table). -/
def update (t : List Cell) (pm : Int) (key : Nat) : List Cell :=
  let b := t.length / N_HASH
  let t0 := modN (updCell pm key) (0 * b + murmur32 0 key % b) t
  let t1 := modN (updCell pm key) (1 * b + murmur32 1 key % b) t0
  modN (updCell pm key) (2 * b + murmur32 2 key % b) t1

/-- `IBLT::insert(key)`. -/
def insertK (t : List Cell) (key : Nat) : List Cell := update t 1 key

/-- `IBLT::erase(key)`: suppressed (logged, no-op) when `badPeers`. -/
def eraseK (t : List Cell) (key : Nat) : List Cell :=
  if badPeers t key then t else update t (-1) key

/-- `IBLT::operator-`: cellwise count difference and XOR of the sums. -/
def subIBLT (a b : List Cell) : List Cell :=
  List.zipWith (fun e1 e2 =>
    ⟨e1.count - e2.count, e1.keySum ^^^ e2.keySum, e1.keyCheck ^^^ e2.keyCheck⟩)
    a b

/-- `std::set::insert` on the accumulating result sets (dedup; the
membership content is what the claims compare). -/
def insertSet (k : Nat) (s : List Nat) : List Nat :=
  if k ∈ s then s else s ++ [k]

/-- Result of one scan step: abort flag (`badPeers` hit), table,
positive and negative sets, and whether something was peeled. -/
structure ScanRes where
  aborted : Bool
  table : List Cell
  pos : List Nat
  neg : List Nat
  peeled : Bool
  deriving DecidableEq, Repr

/-- One pass of the `for (const auto& entry : peeled.m_hashTable)` loop of
`listEntries`, starting at index `i` with `r` cells left to visit. The
loop reads each cell of the *current* (mutated) table in index order. -/
def scanFrom : Nat → Nat → List Cell → List Nat → List Nat → Bool → ScanRes
  | 0, _, t, pos, neg, flag => ⟨false, t, pos, neg, flag⟩
  | r + 1, i, t, pos, neg, flag =>
    let c := t.getD i zeroCell
    if c.isPure then
      if badPeers t c.keySum then ⟨true, t, pos, neg, flag⟩
      else if c.count = 1 then
        scanFrom r (i + 1) (update t (-c.count) c.keySum)
          (insertSet c.keySum pos) neg true
      else
        scanFrom r (i + 1) (update t (-c.count) c.keySum)
          pos (insertSet c.keySum neg) true
    else scanFrom r (i + 1) t pos neg flag

/-- The `do { ... } while (peeledSomething)` loop of `listEntries`, with
explicit fuel (the C++ loop has no termination guarantee; `none` marks
fuel exhaustion and never occurs on the inputs of the claims). -/
def peelLoop : Nat → List Cell → List Nat → List Nat → Option (Bool × List Nat × List Nat)
  | 0, _, _, _ => none
  | f + 1, t, pos, neg =>
    let s := scanFrom t.length 0 t pos neg false
    if s.aborted then some (false, s.pos, s.neg)
    else if s.peeled then peelLoop f s.table s.pos s.neg
    else some (true, s.pos, s.neg)

/-- `IBLT::listEntries(positive, negative)`: peel a copy of the table;
returns `(decode-ok, positive, negative)`. -/
def listEntries (t : List Cell) (fuel : Nat) : Option (Bool × List Nat × List Nat) :=
  peelLoop fuel t [] []

/-- An IBLT object (carrier of the mutable `m_hashTable`). -/
structure IBLTObj where
  cells : List Cell
  deriving DecidableEq, Repr

/-- The `listEntries` METHOD on an object: `IBLT peeled = *this` copies the
table, all peeling mutates `peeled` only, and the method returns; the pair
is (result, the object's state when the method returns). -/
def listEntriesMeth (o : IBLTObj) (fuel : Nat) : Option (Bool × List Nat × List Nat) × IBLTObj :=
  (peelLoop fuel o.cells [] [], o)

/-- A table built by `insert`ing each key of a list into a fresh
`n`-cell table (the way `m_iblt` is populated). -/
def tableOf (n : Nat) (keys : List Nat) : List Cell :=
  keys.foldl insertK (freshTable n)

/-- Modelled from the spec: the spec states the 1.5x headroom "yields very
low peeling failure probability at the design load" but gives no numeric
peeling capacity; the design load `expectedNumEntries` is the stated
capacity of the table built by `IBLT(expectedNumEntries)`. -/
def peelingCapacity (expected : Nat) : Nat := expected

/-! ### Wire serialization (`appendToName` / `extractValueFromName` / `initialize`) -/

/-- The `uint8_t` two's-complement little-endian image of an `int32_t`
(`0xFF & count`, `0xFF & (count >> 8)`, ...). -/
def toUnsigned32 (i : Int) : Nat := (i % 4294967296).toNat

/-- Reading a `uint32_t` into the `int32_t` cell count (two's complement). -/
def toInt32 (w : Nat) : Int :=
  if w < 2147483648 then (w : Int) else (w : Int) - 4294967296

/-- The 12 bytes one cell contributes to the name component payload:
little-endian count, keySum, keyCheck. -/
def cellBytes (c : Cell) : List Nat :=
  bytesLE4 (toUnsigned32 c.count) ++ bytesLE4 c.keySum ++ bytesLE4 c.keyCheck

/-- `IBLT::appendToName`, up to the zlib compressor: the `12·N`-byte
buffer handed to `zlib_compressor` (the compressed string is carried as
the final name component). -/
def tableBytes (t : List Cell) : List Nat :=
  (t.map cellBytes).flatten

/-- `IBLT::extractValueFromName`, after the zlib decompressor: group the
inflated bytes 4 at a time little-endian (`n = ibltValues.size() / 4`;
up to 3 trailing bytes are dropped). -/
def extractValues : List Nat → List Nat
  | a :: b :: c :: d :: rest => le32 a b c d :: extractValues rest
  | _ => []

/-- The merge loop of `IBLT::initialize`: cells whose decoded count is 0
are left at the table's current (zeroed) value. -/
def mergeCells : List Cell → List Nat → List Cell
  | c :: cs, v0 :: v1 :: v2 :: vs =>
    (if v0 ≠ 0 then (⟨toInt32 v0, v1, v2⟩ : Cell) else c) :: mergeCells cs vs
  | cs, _ => cs

/-- `IBLT::initialize(ibltName)` given the zlib-decompressed payload:
fails (throws `Error("Received IBF cannot be decoded!")`, here `none`)
iff `3 * m_hashTable.size() != values.size()`. -/
def initializeIBLT (t : List Cell) (inflated : List Nat) : Option (List Cell) :=
  let values := extractValues inflated
  if 3 * t.length ≠ values.length then none else some (mergeCells t values)

/-- Cell invariant of an insert-populated table: nonnegative count of at
most `bound`, 32-bit sums, and an untouched cell is all-zero. -/
def CohCell (bound : Nat) (c : Cell) : Prop :=
  0 ≤ c.count ∧ c.count ≤ (bound : Int) ∧ c.keySum < M32 ∧ c.keyCheck < M32 ∧
    (c.count = 0 → c.keySum = 0 ∧ c.keyCheck = 0)

/-- What cell serialization needs: an `int32`-ranged nonnegative count,
32-bit sums, and the empty-cell invariant. -/
def CellOK (c : Cell) : Prop :=
  0 ≤ c.count ∧ c.count < 2147483648 ∧ c.keySum < M32 ∧ c.keyCheck < M32 ∧
    (c.count = 0 → c.keySum = 0 ∧ c.keyCheck = 0)

/-! ### NDN names, subscription order and dispatch (`syncps.hpp` onValidData) -/

/-- A name component: an opaque byte string. -/
abbrev Comp := List Nat

/-- A name: a sequence of components. -/
abbrev NdnName := List Comp

/-- Lexicographic byte comparison (used after the length comparison). -/
def cmpBytes : List Nat → List Nat → Ordering
  | [], [] => .eq
  | [], _ :: _ => .lt
  | _ :: _, [] => .gt
  | a :: as, b :: bs =>
    if a < b then .lt else if b < a then .gt else cmpBytes as bs

/-- NDN canonical component order (all components are generic, so type
codes are equal): shorter first, then lexicographic on bytes. -/
def cmpComp (a b : Comp) : Ordering :=
  if a.length < b.length then .lt
  else if b.length < a.length then .gt
  else cmpBytes a b

/-- NDN canonical name order: componentwise; a proper prefix sorts first.
This is the key order of the `std::map` subscription table. -/
def cmpName : NdnName → NdnName → Ordering
  | [], [] => .eq
  | [], _ :: _ => .lt
  | _ :: _, [] => .gt
  | a :: as, b :: bs =>
    match cmpComp a b with
    | .eq => cmpName as bs
    | o => o

/-- `std::map::lower_bound(nm)`: index of the first topic not less than
`nm` in the (sorted) subscription table. -/
def lowerB (nm : NdnName) : List NdnName → Nat
  | [] => 0
  | t :: ts => if cmpName t nm = .lt then lowerB nm ts + 1 else 0

/-- The subscription-dispatch selection of `onValidData`:
`sub = lower_bound(nm)`; deliver to `sub` if it is a prefix of `nm`,
else to `--sub` (when it exists and is a prefix), else nobody. -/
def dispatchSub (topics : List NdnName) (nm : NdnName) : Option NdnName :=
  let i := lowerB nm topics
  if i < topics.length ∧ (topics.getD i []).isPrefixOf nm then
    some (topics.getD i [])
  else if 0 < i ∧ (topics.getD (i - 1) []).isPrefixOf nm then
    some (topics.getD (i - 1) [])
  else none

/-! ### handleInterest and the shim's default filter -/

/-- `maxPubSize` = 1300 bytes, the response packing budget. -/
def maxPubSize : Nat := 1300

/-- Insert into a sorted list (ordering refinement of `std::sort`; used
where the code sorts, and to present `std::set` iteration in ascending
key order). -/
def insBy (le : α → α → Bool) (x : α) : List α → List α
  | [] => [x]
  | y :: ys => if le x y then x :: y :: ys else y :: insBy le x ys

/-- Insertion sort by a boolean `le`. -/
def insSortBy (le : α → α → Bool) : List α → List α
  | [] => []
  | x :: xs => insBy le x (insSortBy le xs)

/-- The classification loop of `handleInterest` step (c): for each digest
in `have` (ascending), a live (`bit 0` set) active publication goes to
`pOurs` if locally published (`bit 1` set), else to `pOthers`. -/
def classifyHave (h2p : Nat → Option P) (act : P → Option Nat) : List Nat → List P × List P
  | [] => ([], [])
  | h :: hs =>
    let rest := classifyHave h2p act hs
    match h2p h with
    | none => rest
    | some p =>
      match act p with
      | none => rest
      | some bits =>
        if bits % 2 = 1 then
          if bits / 2 % 2 = 1 then (p :: rest.1, rest.2) else (rest.1, p :: rest.2)
        else rest

/-- `CRshim::filterPubs`, the default client filter: empty `pOurs` means
answer nothing; otherwise both lists are sorted most-recent-first by the
timestamp in the last name component (`ts`), `pOthers` appended after
`pOurs`. -/
def filterPubsShim [DecidableEq P] (ts : P → Int) (pOurs pOthers : List P) : List P :=
  if pOurs = [] then pOurs
  else
    let ge := fun p1 p2 => decide (ts p2 ≤ ts p1)
    (if 1 < pOurs.length then insSortBy ge pOurs else pOurs) ++ insSortBy ge pOthers

/-- The packing loop of `handleInterest` step (f): push wire encodings
until the block size reaches `maxPubSize` (checked after each push). -/
def packPubs (sz : P → Nat) (acc : Nat) : List P → List P
  | [] => []
  | p :: ps =>
    if maxPubSize ≤ acc + sz p then [p] else p :: packPubs sz (acc + sz p) ps

/-- `SyncPubsub::handleInterest` after the peer IBLT has been decoded from
the name: peel `own − peer`, classify the `have` digests, filter, and
either report unsatisfied (`false`, nothing sent) or send the packed
publications. `none` models a non-terminating peel (never reached here). -/
def handleInterestM (fuel : Nat) (own peer : List Cell) (h2p : Nat → Option P)
    (act : P → Option Nat) (flt : List P → List P → List P) (sz : P → Nat)
    [DecidableEq P] : Option (Bool × List P) :=
  match listEntries (subIBLT own peer) fuel with
  | none => none
  | some (_ok, haveL, _needL) =>
    let cls := classifyHave h2p act (insSortBy Nat.ble haveL)
    let sel := flt cls.1 cls.2
    if sel = [] then some (false, [])
    else some (true, packPubs sz 0 sel)

/-! ### Publication store (`addToActive` / `removeFromActive` / `isKnown`) -/

/-- `maxPubLifetime` = 1 s, in ms. -/
def maxPubLifetime : Nat := 1000

/-- `maxClockSkew` = 1 s, in ms. -/
def maxClockSkew : Nat := 1000

/-- A publication handle: distinct `shared_ptr` identity (`pid`) holding
a wire encoding (the digest input). -/
structure PubH where
  pid : Nat
  wire : List Nat
  deriving DecidableEq, Repr

/-- `SyncPubsub::hashPub`: murmur (seed `N_HASHCHECK`) of the wire bytes. -/
def hashPubW (p : PubH) : Nat := murmurHash3 N_HASHCHECK p.wire

/-- Association-list lookup (`find`). -/
def lookupA [DecidableEq κ] : List (κ × α) → κ → Option α
  | [], _ => none
  | kv :: rest, k => if kv.1 = k then some kv.2 else lookupA rest k

/-- Association-list `m[k] = v`: replace if present, else append. -/
def setA [DecidableEq κ] (l : List (κ × α)) (k : κ) (v : α) : List (κ × α) :=
  if (lookupA l k).isSome then
    l.map fun kv => if kv.1 = k then (k, v) else kv
  else l ++ [(k, v)]

/-- Association-list `m.erase(k)`. -/
def eraseA [DecidableEq κ] (l : List (κ × α)) (k : κ) : List (κ × α) :=
  l.filter fun kv => kv.1 ≠ k

/-- The engine's publication-store state: `m_active` (handle → 2-bit
state), `m_hash2pub` (digest → handle) and `m_iblt`. -/
structure EngineSt where
  active : List (PubH × Nat)
  hash2pub : List (Nat × PubH)
  iblt : List Cell
  deriving DecidableEq, Repr

/-- `SyncPubsub::isKnown(uint32_t)`. -/
def isKnownH (st : EngineSt) (h : Nat) : Bool := (lookupA st.hash2pub h).isSome

/-- `SyncPubsub::isKnown(const Publication&)`. -/
def isKnownP (st : EngineSt) (p : PubH) : Bool := isKnownH st (hashPubW p)

/-- The state mutation of `SyncPubsub::addToActive` (the three scheduled
timers are modelled by `lifeSchedule` below). -/
def addToActiveSt (st : EngineSt) (p : PubH) (localPub : Bool) : EngineSt :=
  let hash := hashPubW p
  { active := setA st.active p (if localPub then 3 else 1)
    hash2pub := setA st.hash2pub hash p
    iblt := insertK st.iblt hash }

/-- `SyncPubsub::removeFromActive`: drop the handle and its digest. -/
def removeFromActiveSt (st : EngineSt) (p : PubH) : EngineSt :=
  { st with
    active := eraseA st.active p
    hash2pub := eraseA st.hash2pub (hashPubW p) }

/-- The three timers `addToActive` schedules for a publication. -/
inductive LifeEv
  | clearLive
  | ibltErase
  | removeP
  deriving DecidableEq, Repr

/-- The deadlines of the three timers, in scheduling order:
clear bit 0 at `L`; `m_iblt.erase(hash)` (plus `sendSyncInterestSoon`,
which does not touch the store) at `L + S`; `removeFromActive` at `2·L`. -/
def lifeSchedule : List (Nat × LifeEv) :=
  [(maxPubLifetime, .clearLive),
   (maxPubLifetime + maxClockSkew, .ibltErase),
   (maxPubLifetime * 2, .removeP)]

/-- Clear bit 0 of a 2-bit state (`m_active[p] &= ~1U`). -/
def clearBit0 (b : Nat) : Nat := b / 2 * 2

/-- The state effect of each timer callback for publication `p`. -/
def applyLifeEv (p : PubH) (st : EngineSt) : LifeEv → EngineSt
  | .clearLive =>
    { st with active := st.active.map fun kv =>
        if kv.1 = p then (kv.1, clearBit0 kv.2) else kv }
  | .ibltErase => { st with iblt := eraseK st.iblt (hashPubW p) }
  | .removeP => removeFromActiveSt st p

/-- The store state `t` ms after a single publication `p` was admitted
(at relative time 0) into an engine with an empty store and a fresh
`n`-cell IBLT: the timers whose deadline has been reached have fired, in
deadline order (FIFO for equal deadlines, as the scheduler fires them). -/
def lifeStateAt (p : PubH) (localPub : Bool) (n : Nat) (t : Nat) : EngineSt :=
  (lifeSchedule.filter fun e => e.1 ≤ t).foldl
    (fun st e => applyLifeEv p st e.2)
    (addToActiveSt ⟨[], [], freshTable n⟩ p localPub)

/-! ## Basic lemmas about the cell-table primitives -/

theorem modN_length (f : Cell → Cell) (i : Nat) (t : List Cell) :
    (modN f i t).length = t.length := by
  induction t generalizing i with
  | nil => cases i <;> rfl
  | cons c cs ih =>
    cases i with
    | zero => rfl
    | succ n => simp [modN, ih]

theorem modN_getD (f : Cell → Cell) (i : Nat) (t : List Cell) (j : Nat) :
    (modN f i t).getD j zeroCell =
      if i = j ∧ j < t.length then f (t.getD j zeroCell) else t.getD j zeroCell := by
  induction t generalizing i j with
  | nil => cases i <;> simp [modN]
  | cons c cs ih =>
    cases i with
    | zero =>
      cases j with
      | zero => simp [modN]
      | succ m => simp [modN]
    | succ n =>
      cases j with
      | zero => simp [modN]
      | succ m =>
        simp only [modN, List.getD_cons_succ, ih, List.length_cons]
        by_cases h1 : n = m
        · by_cases h2 : m < cs.length
          · rw [if_pos ⟨h1, h2⟩, if_pos ⟨by omega, by omega⟩]
          · rw [if_neg (by omega), if_neg (by omega)]
        · rw [if_neg (by omega), if_neg (by omega)]

theorem eqOfGetD : ∀ (a b : List Cell), a.length = b.length →
    (∀ j, a.getD j zeroCell = b.getD j zeroCell) → a = b
  | [], [], _, _ => rfl
  | [], _ :: _, h, _ => by simp at h
  | _ :: _, [], h, _ => by simp at h
  | x :: xs, y :: ys, h, hg => by
    have h0 := hg 0
    simp only [List.getD_cons_zero] at h0
    have ht := eqOfGetD xs ys (by simpa using h) fun j => by
      have := hg (j + 1)
      simpa using this
    rw [h0, ht]

theorem update_length (t : List Cell) (pm : Int) (k : Nat) :
    (update t pm k).length = t.length := by
  simp [update, modN_length]

theorem insertK_length (t : List Cell) (k : Nat) :
    (insertK t k).length = t.length := update_length t 1 k

theorem freshTable_length (n : Nat) : (freshTable n).length = n := by
  simp [freshTable]

theorem tableOf_length (n : Nat) (keys : List Nat) :
    (tableOf n keys).length = n := by
  suffices h : ∀ (ks : List Nat) (t : List Cell), (ks.foldl insertK t).length = t.length by
    simp [tableOf, h, freshTable_length]
  intro ks
  induction ks with
  | nil => intro t; rfl
  | cons k ks ih => intro t; simp [List.foldl_cons, ih, insertK_length]

theorem updCell_cancel (pm : Int) (k : Nat) (x : Cell) :
    updCell (-pm) k (updCell pm k x) = x := by
  ext
  · simp [updCell]
  · simp [updCell, Nat.xor_assoc, Nat.xor_self, Nat.xor_zero]
  · simp [updCell, Nat.xor_assoc, Nat.xor_self, Nat.xor_zero]

theorem update_cancel (t : List Cell) (pm : Int) (k : Nat) :
    update (update t pm k) (-pm) k = t := by
  apply eqOfGetD
  · simp [update_length]
  · intro j
    simp only [update, modN_length, update_length]
    simp only [modN_getD, modN_length, update_length]
    split_ifs <;> simp_all [updCell_cancel]

/-- `erase` right after `insert` of the same key undoes the insert, as
long as the `badPeers` interlock does not trip. -/
theorem insert_erase_restores (t : List Cell) (k : Nat)
    (h : badPeers (insertK t k) k = false) : eraseK (insertK t k) k = t := by
  unfold eraseK
  rw [h]
  simpa using update_cancel t 1 k

/-! ## Claim theorems -/

/-- C5: `IBLT(expectedNumEntries)` allocates `⌈1.5·expected⌉` rounded up
to the nearest multiple of 3 cells; in particular 85 expected entries
yield 129 cells. (`expected + expected/2` in integer arithmetic agrees
with `⌈1.5·expected⌉ = (3·expected+1)/2` after rounding to a multiple of
3, because for odd `expected` both land in the same residue gap.) -/
theorem claim_C5_ctor_size :
    (∀ e, nEntries e =
      (let m := (3 * e + 1) / 2; if m % 3 = 0 then m else m + (3 - m % 3))) ∧
    nEntries 85 = 129 := by
  constructor
  · intro e
    simp only [nEntries, N_HASH]
    split_ifs <;> omega
  · decide

/-- C9: the `listEntries` method peels a copy (`IBLT peeled = *this`);
the object's table when the method returns is its table at entry, and the
result is exactly the peel of the copy. -/
theorem claim_C9_listEntries_const (o : IBLTObj) (fuel : Nat) :
    (listEntriesMeth o fuel).2 = o ∧
    (listEntriesMeth o fuel).1 = listEntries o.cells fuel :=
  ⟨rfl, rfl⟩

/-- C6 counterexample: on a 3-cell table whose cells each hold "minus
key 5" (the state left by subtracting a table containing 5 from an empty
one), `insert(5)` zeroes every cell, so the following `erase(5)` trips
`badPeers` (all three peer cells are empty) and is silently skipped: the
table stays all-zero instead of returning to its pre-insert state. -/
theorem claim_C6_counterexample :
    eraseK (insertK (List.replicate 3 (⟨-1, 5, murmur32 11 5⟩ : Cell)) 5) 5 ≠
      List.replicate 3 (⟨-1, 5, murmur32 11 5⟩ : Cell) := by
  decide

/-- C6 (amended): `insert(k)` followed by `erase(k)` returns the table to
exactly its prior cell values whenever the erase's `badPeers` check
passes; when one of `k`'s cells is empty or pure-without-`k` after the
insert, the erase is suppressed and the table keeps the insert. -/
theorem claim_C6_insert_erase (t : List Cell) (k : Nat)
    (h : badPeers (insertK t k) k = false) : eraseK (insertK t k) k = t :=
  insert_erase_restores t k h

/-- C6 witness: a concrete run of the amended theorem on a fresh 3-cell
table and key 5. -/
theorem claim_C6_insert_erase_witness :
    badPeers (insertK (freshTable 3) 5) 5 = false ∧
      eraseK (insertK (freshTable 3) 5) 5 = freshTable 3 :=
  ⟨by decide, claim_C6_insert_erase (freshTable 3) 5 (by decide)⟩

/-- C3 counterexample: a 37-byte inflated payload (`12·N + 1` for the
3-cell table) is NOT rejected — `extractValueFromName` silently drops the
trailing byte (`n = size/4`) and the `3·N == n` check passes — although
the claim requires every inflated length other than `12·N = 36` to fail. -/
theorem claim_C3_counterexample :
    (initializeIBLT (freshTable 3) (List.replicate 37 0)).isSome = true ∧
      (List.replicate (α := Nat) 37 0).length ≠ 12 * (freshTable 3).length := by
  constructor
  · decide
  · decide

theorem extractValues_length : ∀ bs : List Nat, (extractValues bs).length = bs.length / 4
  | a :: b :: c :: d :: rest => by
    simp only [extractValues, List.length_cons, extractValues_length rest]
    omega
  | [] => by simp [extractValues]
  | [_] => by simp [extractValues]
  | [_, _] => by simp [extractValues]
  | [_, _, _] => by simp [extractValues]

/-- C3 (amended): `initialize` fails with the decodable error iff
`⌊inflated length / 4⌋ ≠ 3·N`; inflated lengths `12·N` through `12·N+3`
are all accepted (1–3 trailing bytes are ignored), everything else is
rejected. -/
theorem claim_C3_initialize_guard (t : List Cell) (inflated : List Nat) :
    initializeIBLT t inflated = none ↔ inflated.length / 4 ≠ 3 * t.length := by
  simp only [initializeIBLT, extractValues_length]
  split_ifs with h
  · simp; omega
  · simp; omega

/-- C1 counterexample: the 32-bit keys 271 and 564 hash to the same cell
in all three sub-tables of the default 129-cell IBLT. With `M_A = {271}`
and `M_B = {564}` the symmetric difference has size 2 — far below the
design-load capacity 85 — yet every cell of `A − B` has count 0, so the
peel finds no pure cell, returns true, and lists `pos = ∅ ≠ M_A \ M_B`
and `neg = ∅ ≠ M_B \ M_A`. -/
theorem claim_C1_counterexample :
    listEntries (subIBLT (tableOf (nEntries 85) [271]) (tableOf (nEntries 85) [564]))
        (nEntries 85) = some (true, [], []) ∧
      ([] : List Nat).toFinset ≠ ([271] : List Nat).toFinset \ ([564] : List Nat).toFinset ∧
      2 ≤ peelingCapacity 85 :=
  ⟨by decide, by decide, by decide⟩

/-- C1 (amended): peeling is best-effort — `listEntries` on a small
in-capacity difference can return true with strictly incomplete `pos` and
`neg` when difference keys collide in all three sub-tables; on inputs
where the peel completes, `pos` and `neg` are exactly the two sides of
the symmetric difference, as on this default-size instance with 10 shared
keys and a 3-versus-3 difference. -/
theorem claim_C1_peel_instance :
    listEntries (subIBLT
        (tableOf (nEntries 85)
          ([1000, 1001, 1002, 1003, 1004, 1005, 1006, 1007, 1008, 1009] ++ [11, 22, 33]))
        (tableOf (nEntries 85)
          ([1000, 1001, 1002, 1003, 1004, 1005, 1006, 1007, 1008, 1009] ++ [44, 55, 66])))
        (nEntries 85) = some (true, [11, 22, 33], [44, 55, 66]) ∧
      ([11, 22, 33] : List Nat).toFinset =
        ([1000, 1001, 1002, 1003, 1004, 1005, 1006, 1007, 1008, 1009, 11, 22, 33] : List Nat).toFinset \
          ([1000, 1001, 1002, 1003, 1004, 1005, 1006, 1007, 1008, 1009, 44, 55, 66] : List Nat).toFinset ∧
      ([44, 55, 66] : List Nat).toFinset =
        ([1000, 1001, 1002, 1003, 1004, 1005, 1006, 1007, 1008, 1009, 44, 55, 66] : List Nat).toFinset \
          ([1000, 1001, 1002, 1003, 1004, 1005, 1006, 1007, 1008, 1009, 11, 22, 33] : List Nat).toFinset :=
  ⟨by decide, by decide, by decide⟩

/-- C4: the dispatch of `onValidData` checks only `lower_bound(nm)` and
its immediate predecessor. With subscriptions to `/a` and `/a/b` (in map
order) and an admitted publication named `/a/c/t`, `/a` is a subscribed
prefix of the name, yet `lower_bound` lands past `/a/b`, the predecessor
`/a/b` is not a prefix, and NO callback is invoked — contradicting the
longest-prefix routing the code's own `subscribeTo` contract ("Calls 'cb'
on each new publication to 'topic'") and the spec describe. -/
theorem claim_C4_dispatch_miss :
    cmpName [[97]] [[97], [98]] = Ordering.lt ∧
      List.isPrefixOf [[97]] ([[97], [99], [116]] : NdnName) = true ∧
      dispatchSub [[[97]], [[97], [98]]] [[97], [99], [116]] = none :=
  ⟨by decide, by decide, by decide⟩

/-! ## Lemmas for C7: a peer IBLT equal to ours peels to nothing -/

theorem sub_self_iblt : ∀ t : List Cell, subIBLT t t = freshTable t.length
  | [] => rfl
  | c :: cs => by
    simp only [subIBLT] at *
    simp [sub_self_iblt cs, freshTable, List.replicate_succ, zeroCell, Nat.xor_self]

theorem fresh_getD (n j : Nat) : (freshTable n).getD j zeroCell = zeroCell := by
  induction n generalizing j with
  | zero => simp [freshTable]
  | succ m ih =>
    cases j with
    | zero => simp [freshTable]
    | succ i =>
      simp only [freshTable, List.replicate_succ, List.getD_cons_succ]
      exact ih i

theorem scan_no_pure : ∀ (r i : Nat) (t : List Cell) (pos neg : List Nat) (flag : Bool),
    (∀ j, (t.getD j zeroCell).isPure = false) →
    scanFrom r i t pos neg flag = ⟨false, t, pos, neg, flag⟩
  | 0, _, _, _, _, _, _ => rfl
  | r + 1, i, t, pos, neg, flag, h => by
    simp only [scanFrom, h i, Bool.false_eq_true, if_false]
    exact scan_no_pure r (i + 1) t pos neg flag h

theorem listEntries_fresh (n f : Nat) :
    listEntries (freshTable n) (f + 1) = some (true, [], []) := by
  unfold listEntries peelLoop
  rw [scan_no_pure _ 0 _ _ _ _ (fun j => by rw [fresh_getD]; rfl)]
  simp

/-- C7: when the decoded peer IBLT equals the engine's own IBLT,
`handleInterest` peels an all-zero difference, so `have` is empty, both
classified lists are empty, the default client filter returns empty
(its "nothing of ours" branch), and the engine answers nothing and
reports the interest unsatisfied. -/
theorem claim_C7_equal_iblt_unsatisfied {P : Type} [DecidableEq P]
    (fuel : Nat) (hf : 1 ≤ fuel) (own : List Cell) (h2p : Nat → Option P)
    (act : P → Option Nat) (ts : P → Int) (sz : P → Nat) :
    handleInterestM fuel own own h2p act (filterPubsShim ts) sz = some (false, []) := by
  obtain ⟨f, rfl⟩ : ∃ f, fuel = f + 1 := ⟨fuel - 1, by omega⟩
  unfold handleInterestM
  rw [sub_self_iblt, listEntries_fresh]
  simp [classifyHave, insSortBy, filterPubsShim]

/-! ## Lemmas for C2: bounds, coherence of insert-built tables, byte round-trip -/

theorem M32_pos : 0 < M32 := by norm_num [M32]

theorem xor_lt_M32 {x y : Nat} (hx : x < M32) (hy : y < M32) : x ^^^ y < M32 := by
  have h32 : M32 = 2 ^ 32 := by norm_num [M32]
  rw [h32] at hx hy ⊢
  exact Nat.bitwise_lt hx hy

theorem mmixK_lt (k : Nat) : mmixK k < M32 := Nat.mod_lt _ M32_pos

theorem mstep_lt (h1 k : Nat) : mstep h1 k < M32 := Nat.mod_lt _ M32_pos

theorem mtail_lt (h1 : Nat) (t : List Nat) (hh : h1 < M32) : mtail h1 t < M32 := by
  rcases t with _ | ⟨a, _ | ⟨b, _ | ⟨c, _ | ⟨d, rest⟩⟩⟩⟩
  · exact hh
  · exact xor_lt_M32 hh (mmixK_lt _)
  · exact xor_lt_M32 hh (mmixK_lt _)
  · exact xor_lt_M32 hh (mmixK_lt _)
  · exact hh

theorem shiftR_le (x n : Nat) : x >>> n ≤ x := by
  rw [Nat.shiftRight_eq_div_pow]
  exact Nat.div_le_self x (2 ^ n)

theorem mfinal_lt (h : Nat) : mfinal h < M32 := by
  unfold mfinal
  exact xor_lt_M32 (Nat.mod_lt _ M32_pos)
    (Nat.lt_of_le_of_lt (shiftR_le _ _) (Nat.mod_lt _ M32_pos))

theorem murmurHash3_lt (seed : Nat) (bytes : List Nat) : murmurHash3 seed bytes < M32 :=
  mfinal_lt _

theorem murmur32_lt (seed v : Nat) : murmur32 seed v < M32 := murmurHash3_lt _ _

theorem modN_forall {P Q : Cell → Prop} (f : Cell → Cell) (i : Nat) (t : List Cell)
    (h : ∀ c ∈ t, P c) (hPQ : ∀ c, P c → Q c) (hf : ∀ c, P c → Q (f c)) :
    ∀ c ∈ modN f i t, Q c := by
  induction t generalizing i with
  | nil => intro c hc; cases i <;> simp [modN] at hc
  | cons x xs ih =>
    intro c hc
    cases i with
    | zero =>
      simp only [modN, List.mem_cons] at hc
      rcases hc with rfl | hc
      · exact hf x (h x (List.mem_cons_self x xs))
      · exact hPQ c (h c (List.mem_cons_of_mem x hc))
    | succ n =>
      simp only [modN, List.mem_cons] at hc
      rcases hc with rfl | hc
      · exact hPQ c (h c (List.mem_cons_self c xs))
      · exact ih n (fun c' hc' => h c' (List.mem_cons_of_mem x hc')) c hc

theorem updCell_coh (m k : Nat) (hk : k < M32) (c : Cell) (h : CohCell m c) :
    CohCell (m + 1) (updCell 1 k c) := by
  obtain ⟨h0, h1, h2, h3, _h4⟩ := h
  refine ⟨by simp [updCell]; omega, by simp [updCell]; omega,
    xor_lt_M32 h2 hk, xor_lt_M32 h3 (murmur32_lt _ _), ?_⟩
  intro hz
  simp [updCell] at hz
  omega

theorem cohCell_mono {b b' : Nat} (hb : b ≤ b') (c : Cell) (h : CohCell b c) :
    CohCell b' c := by
  obtain ⟨h0, h1, h2, h3, h4⟩ := h
  exact ⟨h0, by omega, h2, h3, h4⟩

theorem coh_insert (t : List Cell) (k : Nat) (b : Nat) (hk : k < M32)
    (ht : ∀ c ∈ t, CohCell b c) : ∀ c ∈ insertK t k, CohCell (b + 3) c := by
  have step : ∀ (m i : Nat) (s : List Cell), (∀ c ∈ s, CohCell m c) →
      ∀ c ∈ modN (updCell 1 k) i s, CohCell (m + 1) c := by
    intro m i s hs
    exact modN_forall _ i s hs (fun c hc => cohCell_mono (Nat.le_succ m) c hc)
      (fun c hc => updCell_coh m k hk c hc)
  intro c hc
  unfold insertK update at hc
  exact step (b + 2) _ _ (step (b + 1) _ _ (step b _ _ ht)) c hc

theorem zeroCell_coh : CohCell 0 zeroCell :=
  ⟨le_refl 0, le_refl 0, M32_pos, M32_pos, fun _ => ⟨rfl, rfl⟩⟩

theorem foldl_coh : ∀ (ks : List Nat) (t : List Cell) (b : Nat),
    (∀ c ∈ t, CohCell b c) → (∀ k ∈ ks, k < M32) →
    ∀ c ∈ ks.foldl insertK t, CohCell (b + 3 * ks.length) c
  | [], t, b, ht, _ => by simpa using ht
  | k :: ks, t, b, ht, hk => by
    have step := coh_insert t k b (hk k (List.mem_cons_self k ks)) ht
    have rec := foldl_coh ks (insertK t k) (b + 3) step
      (fun k' h' => hk k' (List.mem_cons_of_mem k h'))
    intro c hc
    have := rec c (by simpa using hc)
    exact cohCell_mono (by simp [List.length_cons]; omega) c this

theorem tableOf_coh (n : Nat) (keys : List Nat) (hk : ∀ k ∈ keys, k < M32) :
    ∀ c ∈ tableOf n keys, CohCell (3 * keys.length) c := by
  intro c hc
  have h0 : ∀ c ∈ freshTable n, CohCell 0 c := by
    intro c hc
    rw [List.eq_of_mem_replicate hc]
    exact zeroCell_coh
  have := foldl_coh keys (freshTable n) 0 h0 hk c hc
  simpa using this

theorem toU32_lt (i : Int) : toUnsigned32 i < M32 := by
  unfold toUnsigned32 M32
  omega

theorem extract_le4 (v : Nat) (rest : List Nat) (hv : v < M32) :
    extractValues (bytesLE4 v ++ rest) = v :: extractValues rest := by
  have hv' : le32 (v % 256) (v / 256 % 256) (v / 65536 % 256) (v / 16777216 % 256) = v := by
    unfold le32
    unfold M32 at hv
    omega
  simp [bytesLE4, extractValues, hv']

theorem tableBytes_cons (c : Cell) (cs : List Cell) :
    tableBytes (c :: cs) = cellBytes c ++ tableBytes cs := by
  simp [tableBytes]

theorem tableBytes_length : ∀ t : List Cell, (tableBytes t).length = 12 * t.length
  | [] => rfl
  | c :: cs => by
    rw [tableBytes_cons]
    simp [cellBytes, bytesLE4, tableBytes_length cs]
    omega

theorem roundtrip_cells : ∀ t : List Cell, (∀ c ∈ t, CellOK c) →
    mergeCells (freshTable t.length) (extractValues (tableBytes t)) = t
  | [], _ => rfl
  | c :: cs, h => by
    obtain ⟨h0, h1, h2, h3, h4⟩ := h c (List.mem_cons_self c cs)
    have hcs := fun x hx => h x (List.mem_cons_of_mem c hx)
    rw [tableBytes_cons,
      show cellBytes c ++ tableBytes cs =
        bytesLE4 (toUnsigned32 c.count) ++
          (bytesLE4 c.keySum ++ (bytesLE4 c.keyCheck ++ tableBytes cs)) from by
        simp [cellBytes],
      extract_le4 _ _ (toU32_lt _), extract_le4 _ _ h2, extract_le4 _ _ h3,
      show freshTable (c :: cs).length = zeroCell :: freshTable cs.length from by
        simp [freshTable, List.replicate_succ]]
    unfold mergeCells
    rw [roundtrip_cells cs hcs]
    congr 1
    by_cases hz : c.count = 0
    · have hu : toUnsigned32 c.count = 0 := by
        unfold toUnsigned32
        omega
      rw [if_neg (by simp [hu])]
      obtain ⟨hs, hk⟩ := h4 hz
      ext
      · simp [zeroCell, hz]
      · simp [zeroCell, hs]
      · simp [zeroCell, hk]
    · have hu : toUnsigned32 c.count ≠ 0 := by
        unfold toUnsigned32
        omega
      have hti : toInt32 (toUnsigned32 c.count) = c.count := by
        unfold toInt32 toUnsigned32
        split_ifs <;> omega
      rw [if_pos hu, hti]

/-- C2: serializing an insert-populated IBLT with `appendToName` (byte
packing, then an inflate/deflate pair that round-trips, as zlib does)
and `initialize`-ing a fresh same-size IBLT from the result reconstructs
every cell exactly. The count bound keeps cell counts in `int32` range. -/
theorem claim_C2_roundtrip (n : Nat) (keys : List Nat)
    (deflate inflate : List Nat → List Nat)
    (hz : ∀ bs, inflate (deflate bs) = bs)
    (hlen : 3 * keys.length < 2147483648)
    (hk : ∀ k ∈ keys, k < M32) :
    initializeIBLT (freshTable n) (inflate (deflate (tableBytes (tableOf n keys)))) =
      some (tableOf n keys) := by
  rw [hz]
  have hok : ∀ c ∈ tableOf n keys, CellOK c := by
    intro c hc
    obtain ⟨h0, h1, h2, h3, h4⟩ := tableOf_coh n keys hk c hc
    exact ⟨h0, by omega, h2, h3, h4⟩
  have hvl : (extractValues (tableBytes (tableOf n keys))).length = 3 * n := by
    rw [extractValues_length, tableBytes_length, tableOf_length]
    omega
  unfold initializeIBLT
  rw [if_neg (by rw [hvl, freshTable_length]; omega)]
  have := roundtrip_cells (tableOf n keys) hok
  rw [tableOf_length] at this
  rw [this]

/-- C2 witness: a concrete round-trip of the 6-cell table holding keys 3
and 5, with the identity inflate/deflate pair. -/
theorem claim_C2_roundtrip_witness :
    (∀ bs : List Nat, id (id bs) = bs) ∧
      3 * ([3, 5] : List Nat).length < 2147483648 ∧
      (∀ k ∈ ([3, 5] : List Nat), k < M32) ∧
      initializeIBLT (freshTable 6) (id (id (tableBytes (tableOf 6 [3, 5])))) =
        some (tableOf 6 [3, 5]) :=
  ⟨fun _ => rfl, by decide, by decide,
   claim_C2_roundtrip 6 [3, 5] id id (fun _ => rfl) (by decide) (by decide)⟩

/-- C7 witness: a concrete engine state (one key inserted) asked with an
identical peer IBLT answers nothing. -/
theorem claim_C7_equal_iblt_unsatisfied_witness :
    1 ≤ 1 ∧
      handleInterestM (P := Nat) 1 (insertK (freshTable 3) 7) (insertK (freshTable 3) 7)
        (fun _ => none) (fun _ => none) (filterPubsShim fun _ => 0) (fun _ => 0) =
        some (false, []) :=
  ⟨Nat.le_refl 1,
   claim_C7_equal_iblt_unsatisfied 1 (Nat.le_refl 1) (insertK (freshTable 3) 7)
     (fun _ => none) (fun _ => none) (fun _ => 0) (fun _ => 0)⟩

/-! ## Lemmas for C8: cells of a single insertion into a fresh table -/

theorem insert_fresh_getD (b k : Nat) (hb : 0 < b) (j : Nat) :
    (insertK (freshTable (3 * b)) k).getD j zeroCell =
      if j = murmur32 0 k % b ∨ j = b + murmur32 1 k % b ∨ j = 2 * b + murmur32 2 k % b
      then updCell 1 k zeroCell else zeroCell := by
  have hb3 : (freshTable (3 * b)).length / N_HASH = b := by
    simp only [freshTable_length, N_HASH]
    omega
  simp only [insertK, update]
  rw [hb3]
  simp only [modN_getD, modN_length, freshTable_length, fresh_getD]
  generalize hq0 : murmur32 0 k % b = q0
  generalize hq1 : murmur32 1 k % b = q1
  generalize hq2 : murmur32 2 k % b = q2
  have h0 : q0 < b := hq0 ▸ Nat.mod_lt _ hb
  have h1 : q1 < b := hq1 ▸ Nat.mod_lt _ hb
  have h2 : q2 < b := hq2 ▸ Nat.mod_lt _ hb
  split_ifs <;> first | rfl | (exfalso; omega)

theorem badPeers_insert_fresh (b k : Nat) (hb : 0 < b) :
    badPeers (insertK (freshTable (3 * b)) k) k = false := by
  have hlen : (insertK (freshTable (3 * b)) k).length / N_HASH = b := by
    simp only [insertK_length, freshTable_length, N_HASH]
    omega
  have hcell : ∀ j, j = murmur32 0 k % b ∨ j = b + murmur32 1 k % b ∨
      j = 2 * b + murmur32 2 k % b →
      chkPeer (insertK (freshTable (3 * b)) k) k j = false := by
    intro j hj
    unfold chkPeer
    rw [insert_fresh_getD b k hb, if_pos hj]
    simp [updCell, zeroCell, Cell.isEmptyC, Cell.isPure, Nat.zero_xor]
  unfold badPeers hash0 hash1 hash2
  rw [hlen]
  rw [hcell _ (Or.inl rfl),
    hcell _ (Or.inr (Or.inl (Nat.add_comm _ _))),
    hcell _ (Or.inr (Or.inr (by rw [Nat.add_comm, Nat.mul_comm])))]
  rfl

theorem insert_erase_fresh (b k : Nat) (hb : 0 < b) :
    eraseK (insertK (freshTable (3 * b)) k) k = freshTable (3 * b) :=
  insert_erase_restores _ _ (badPeers_insert_fresh b k hb)

theorem fresh_ne_insert (b k : Nat) (hb : 0 < b) :
    freshTable (3 * b) ≠ insertK (freshTable (3 * b)) k := by
  intro he
  have hc : (freshTable (3 * b)).getD (murmur32 0 k % b) zeroCell =
      (insertK (freshTable (3 * b)) k).getD (murmur32 0 k % b) zeroCell := by
    rw [← he]
  rw [insert_fresh_getD b k hb, if_pos (Or.inl rfl), fresh_getD] at hc
  simp [zeroCell, updCell] at hc

/-- C8: a publication `p` admitted at relative time 0 (locally via
`publish` or remotely via `onValidData`) into an engine with an empty
store: `isKnown(p)` holds exactly on `[0, 2·maxPubLifetime)`, the live
bit (bit 0 of its store state) is set exactly on `[0, maxPubLifetime)`,
and its digest stays in the engine's IBLT exactly on
`[0, maxPubLifetime + maxClockSkew)`. -/
theorem claim_C8_lifecycle (p : PubH) (loc : Bool) (b t : Nat) (hb : 0 < b) :
    (isKnownP (lifeStateAt p loc (3 * b) t) p = true ↔ t < 2 * maxPubLifetime) ∧
      ((lookupA (lifeStateAt p loc (3 * b) t).active p).getD 0 % 2 = 1 ↔
        t < maxPubLifetime) ∧
      ((lifeStateAt p loc (3 * b) t).iblt =
          insertK (freshTable (3 * b)) (hashPubW p) ↔
        t < maxPubLifetime + maxClockSkew) := by
  rcases Nat.lt_or_ge t 1000 with h1 | h1
  · have ha : ¬ (1000 ≤ t) := by omega
    have hc : ¬ (1000 + 1000 ≤ t) := by omega
    have hd : ¬ (1000 * 2 ≤ t) := by omega
    have hstate : lifeStateAt p loc (3 * b) t =
        addToActiveSt ⟨[], [], freshTable (3 * b)⟩ p loc := by
      unfold lifeStateAt lifeSchedule maxPubLifetime maxClockSkew
      simp [List.filter_cons, ha, hc, hd]
    rw [hstate]
    unfold maxPubLifetime maxClockSkew
    simp only [addToActiveSt, isKnownP, isKnownH]
    refine ⟨?_, ?_, ?_⟩
    · simp [setA, lookupA]
      omega
    · cases loc <;> simp [setA, lookupA] <;> omega
    · simp [setA]
      omega
  · rcases Nat.lt_or_ge t 2000 with h2 | h2
    · have ha : (1000 ≤ t) := by omega
      have hc : ¬ (1000 + 1000 ≤ t) := by omega
      have hd : ¬ (1000 * 2 ≤ t) := by omega
      have hstate : lifeStateAt p loc (3 * b) t =
          applyLifeEv p (addToActiveSt ⟨[], [], freshTable (3 * b)⟩ p loc) .clearLive := by
        unfold lifeStateAt lifeSchedule maxPubLifetime maxClockSkew
        simp [List.filter_cons, ha, hc, hd]
      rw [hstate]
      unfold maxPubLifetime maxClockSkew
      simp only [applyLifeEv, addToActiveSt, isKnownP, isKnownH]
      refine ⟨?_, ?_, ?_⟩
      · simp [setA, lookupA]
        omega
      · cases loc <;> simp [setA, lookupA, clearBit0] <;> omega
      · simp [setA]
        omega
    · have ha : (1000 ≤ t) := by omega
      have hc : (1000 + 1000 ≤ t) := by omega
      have hd : (1000 * 2 ≤ t) := by omega
      have hstate : lifeStateAt p loc (3 * b) t =
          applyLifeEv p (applyLifeEv p
            (applyLifeEv p (addToActiveSt ⟨[], [], freshTable (3 * b)⟩ p loc) .clearLive)
            .ibltErase) .removeP := by
        unfold lifeStateAt lifeSchedule maxPubLifetime maxClockSkew
        simp [List.filter_cons, ha, hc, hd]
      rw [hstate]
      unfold maxPubLifetime maxClockSkew
      simp only [applyLifeEv, removeFromActiveSt, addToActiveSt, isKnownP, isKnownH]
      refine ⟨?_, ?_, ?_⟩
      · simp [setA, lookupA, eraseA]
        omega
      · cases loc <;> simp [setA, lookupA, eraseA, clearBit0] <;> omega
      · simp [insert_erase_fresh b (hashPubW p) hb]
        constructor
        · intro hcontr
          exact absurd hcontr (fresh_ne_insert b (hashPubW p) hb)
        · omega

/-- C8 witness: the lifecycle windows at a concrete publication, table
size 3 and time 0. -/
theorem claim_C8_lifecycle_witness :
    0 < 1 ∧
      ((isKnownP (lifeStateAt ⟨1, [0]⟩ true (3 * 1) 0) ⟨1, [0]⟩ = true ↔
          0 < 2 * maxPubLifetime) ∧
        ((lookupA (lifeStateAt ⟨1, [0]⟩ true (3 * 1) 0).active ⟨1, [0]⟩).getD 0 % 2 = 1 ↔
          0 < maxPubLifetime) ∧
        ((lifeStateAt ⟨1, [0]⟩ true (3 * 1) 0).iblt =
            insertK (freshTable (3 * 1)) (hashPubW ⟨1, [0]⟩) ↔
          0 < maxPubLifetime + maxClockSkew)) :=
  ⟨Nat.one_pos, claim_C8_lifecycle ⟨1, [0]⟩ true 1 0 Nat.one_pos⟩

/-- C10: when two distinct handles `p ≠ q` whose wire encodings share the
32-bit digest are both present in the active store (with `hash2pub`
pointing at the later one), `removeFromActive(p)` erases the shared
digest from the `hash2pub` side table, so `isKnown(q)` is false
afterwards even though `q`'s handle is still in the active map. -/
theorem claim_C10_collision_eviction (p q : PubH) (b1 b2 : Bool)
    (hpq : p ≠ q) (hh : hashPubW p = hashPubW q) :
    isKnownP
        (removeFromActiveSt
          (addToActiveSt (addToActiveSt ⟨[], [], freshTable 129⟩ p b1) q b2) p) q = false ∧
      (lookupA
        (removeFromActiveSt
          (addToActiveSt (addToActiveSt ⟨[], [], freshTable 129⟩ p b1) q b2) p).active
        q).isSome = true := by
  simp [addToActiveSt, removeFromActiveSt, isKnownP, isKnownH, setA, lookupA, eraseA,
    hh, hpq, Ne.symm hpq]

/-- C10 witness: two concrete 8-byte wire encodings with the same
murmur(11) digest 417353595. -/
theorem claim_C10_collision_eviction_witness :
    (⟨1, [157, 209, 21, 245, 49, 23, 88, 135]⟩ : PubH) ≠
        ⟨2, [121, 207, 125, 236, 231, 104, 71, 173]⟩ ∧
      hashPubW ⟨1, [157, 209, 21, 245, 49, 23, 88, 135]⟩ =
        hashPubW ⟨2, [121, 207, 125, 236, 231, 104, 71, 173]⟩ ∧
      (isKnownP
          (removeFromActiveSt
            (addToActiveSt
              (addToActiveSt ⟨[], [], freshTable 129⟩
                ⟨1, [157, 209, 21, 245, 49, 23, 88, 135]⟩ true)
              ⟨2, [121, 207, 125, 236, 231, 104, 71, 173]⟩ true)
            ⟨1, [157, 209, 21, 245, 49, 23, 88, 135]⟩)
          ⟨2, [121, 207, 125, 236, 231, 104, 71, 173]⟩ = false ∧
        (lookupA
          (removeFromActiveSt
            (addToActiveSt
              (addToActiveSt ⟨[], [], freshTable 129⟩
                ⟨1, [157, 209, 21, 245, 49, 23, 88, 135]⟩ true)
              ⟨2, [121, 207, 125, 236, 231, 104, 71, 173]⟩ true)
            ⟨1, [157, 209, 21, 245, 49, 23, 88, 135]⟩).active
          ⟨2, [121, 207, 125, 236, 231, 104, 71, 173]⟩).isSome = true) :=
  ⟨by decide, by decide,
   claim_C10_collision_eviction ⟨1, [157, 209, 21, 245, 49, 23, 88, 135]⟩
     ⟨2, [121, 207, 125, 236, 231, 104, 71, 173]⟩ true true (by decide) (by decide)⟩

end DNMP
